import Mathlib

/-!
Verification of the core of the Voiceflow documentation MCP server
(`voiceflow_mcp_server.py`): heading-aware markdown chunking, title and
description extraction, content cleaning, the cached fetch pipeline with
its retry policy, the lexical search fallback, the vector ranking path,
and the warm-up candidate ordering.

Strings are modelled as lists of characters; line splitting is modelled
on the newline character.  Network access is modelled by an oracle
mapping a URL and an attempt index to either a response or a raised
timeout.  Floating-point similarity values are modelled as rationals.
-/

namespace VF

/-- Whitespace characters (ASCII range) as stripped by Python str.strip
and matched by the regex whitespace class. -/
def isWS (c : Char) : Bool :=
  c == ' ' || c == '\t' || c == '\n' || c == '\r' || c.toNat == 11 || c.toNat == 12

/-- Convert a string literal to the character-list model. -/
def strL (s : String) : List Char := s.toList

/-- Python str.startswith on character lists. -/
def leadsWith : List Char → List Char → Bool
  | [], _ => true
  | _ :: _, [] => false
  | p :: ps, c :: cs => p == c && leadsWith ps cs

/-- Python str.endswith on character lists. -/
def trailsWith (suf s : List Char) : Bool := leadsWith suf.reverse s.reverse

/-- Remove trailing whitespace (the right half of Python str.strip). -/
def dropEndWS (l : List Char) : List Char := (l.reverse.dropWhile isWS).reverse

/-- Python str.strip on character lists. -/
def pyStrip (l : List Char) : List Char := (dropEndWS l).dropWhile isWS

/-- Split on the newline character, keeping a trailing empty segment
(the behaviour of Python str.split applied to a single newline). -/
def splitNl : List Char → List (List Char)
  | [] => [[]]
  | c :: cs =>
    if c = '\n' then [] :: splitNl cs
    else
      match splitNl cs with
      | [] => [[c]]
      | l :: ls => (c :: l) :: ls

/-- Drop the final segment when it is empty, turning split-on-newline
into Python str.splitlines for newline-separated text. -/
def dropTrailEmpty : List (List Char) → List (List Char)
  | [] => []
  | [l] => if l = [] then [] else [l]
  | l :: l2 :: ls => l :: dropTrailEmpty (l2 :: ls)

/-- Python str.splitlines for newline-separated text. -/
def pySplitlines (s : List Char) : List (List Char) := dropTrailEmpty (splitNl s)

/-- Python a-newline-join of a list of lines. -/
def joinLines : List (List Char) → List Char
  | [] => []
  | [l] => l
  | l :: l2 :: ls => l ++ '\n' :: joinLines (l2 :: ls)

/-- Concatenation of a list of character lists. -/
def joinAll : List (List Char) → List Char
  | [] => []
  | l :: ls => l ++ joinAll ls

/-- Erase every whitespace character; two texts are equal up to
whitespace exactly when their images under this map are equal. -/
def ews (l : List Char) : List Char := l.filter (fun c => !isWS c)

/-- The code-fence marker: three backquote characters. -/
def fenceMark : List Char := strL "```"

/-- A fence-marker line: its stripped form starts with the marker
(source: ln.strip().startswith of the triple-backquote marker). -/
def isFence (l : List Char) : Bool := leadsWith fenceMark (pyStrip l)

/-- Number of fence-marker lines in a list of lines. -/
def fenceLinesCount (ls : List (List Char)) : Nat := ls.countP (fun l => isFence l)

/-- Number of fence-marker lines among the newline-split segments. -/
def strFence (s : List Char) : Nat := fenceLinesCount (splitNl s)

/-- The input has balanced code fences: an even number of fence-marker
lines overall. -/
@[reducible] def balancedFences (md : List Char) : Prop :=
  fenceLinesCount (pySplitlines md) % 2 = 0

/-- Number of leading hash characters of a line. -/
def leadingHashCount (l : List Char) : Nat :=
  (l.takeWhile (fun c => c == '#')).length

/-- The heading regex of the chunker: one to three hashes followed by a
whitespace character, anchored at the start of the line. -/
def isHeading (l : List Char) : Bool :=
  let k := leadingHashCount l
  decide (1 ≤ k) && decide (k ≤ 3) &&
    (match l.drop k with
     | [] => false
     | c :: _ => isWS c)

/-- The heading text: the line with the hash marker and the following
whitespace run removed, then stripped. -/
def headingText (l : List Char) : List Char :=
  pyStrip ((l.drop (leadingHashCount l)).dropWhile isWS)

/-- One chunk produced by the chunker: heading text and verbatim markdown. -/
structure Chunk where
  heading : List Char
  markdown : List Char
deriving DecidableEq

/-- State of the chunking scan: emitted chunks, current line buffer,
current heading, inside-code-fence flag. -/
structure CState where
  chunks : List Chunk
  buf : List (List Char)
  curH : Option (List Char)
  inCode : Bool

/-- The flush helper of chunk_markdown: join and strip the buffer,
emit a chunk when the text is non-empty, clear the buffer. -/
def flushBuf (st : CState) : CState :=
  if st.buf = [] then st
  else
    let text := pyStrip (joinLines st.buf)
    { st with
      chunks := if text = [] then st.chunks
                else st.chunks ++ [{ heading := st.curH.getD [], markdown := text }],
      buf := [] }

/-- One line of the chunking scan: fence lines toggle the code flag and
are buffered; outside code, a heading line flushes the buffer and starts
a new chunk; every other line is buffered. -/
def chunkStep (st : CState) (ln : List Char) : CState :=
  if isFence ln then
    { st with inCode := !st.inCode, buf := st.buf ++ [ln] }
  else if !st.inCode && isHeading ln then
    let st' := flushBuf st
    { st' with curH := some (headingText ln), buf := st'.buf ++ [ln] }
  else
    { st with buf := st.buf ++ [ln] }

/-- chunk_markdown: split into lines, scan, and flush the final buffer. -/
def chunk_markdown (md : List Char) : List Chunk :=
  (flushBuf ((pySplitlines md).foldl chunkStep ⟨[], [], none, false⟩)).chunks

def hashSp : List Char := strL "# "
def titleTok : List Char := strL "title:"
def h2Sp : List Char := strL "## "
def hashOne : List Char := strL "#"
def descTok : List Char := strL "description:"
def dashesTok : List Char := strL "---"
def mdExt : List Char := strL ".md"
def mdTok : List Char := strL "markdown"
def plainTok : List Char := strL "text/plain"

/-- The scan of extract_title: the first line starting with a hash-space
marker or with the title prefix wins, in line order. -/
def titleScan : List (List Char) → List Char
  | [] => strL "Untitled"
  | l :: ls =>
    if leadsWith hashSp l then pyStrip (l.drop 2)
    else if leadsWith titleTok l then pyStrip (l.drop 6)
    else titleScan ls

/-- extract_title: scan the first 10 lines. -/
def extract_title (content : List Char) : List Char :=
  titleScan ((splitNl content).take 10)

/-- The specification-style reading of title extraction, for the amended
claim: the first line (among the first 10) matching either pattern
determines the result; modelled from the amended specification words. -/
def titleFirstMatch (content : List Char) : List Char :=
  match ((splitNl content).take 10).find?
      (fun l => leadsWith hashSp l || leadsWith titleTok l) with
  | some l => if leadsWith hashSp l then pyStrip (l.drop 2) else pyStrip (l.drop 6)
  | none => strL "Untitled"

/-- Inner scan of extract_description: look for the first non-empty
non-heading line with index below the stop bound. -/
def descInner (lines : List (List Char)) (stop j : Nat) : Option (List Char) :=
  if h : j < stop then
    let lj := lines.getD j []
    if pyStrip lj ≠ [] ∧ leadsWith hashOne lj = false then
      some ((pyStrip lj).take 200 ++ strL "...")
    else descInner lines stop (j + 1)
  else none
termination_by stop - j

/-- Outer scan of extract_description over the first 20 lines with index. -/
def descLoop (lines : List (List Char)) : Nat → List (List Char) → List Char
  | _, [] => []
  | i, l :: ls =>
    if leadsWith descTok l then pyStrip (l.drop 12)
    else if leadsWith h2Sp l ∧ 0 < i then
      match descInner lines (min (i + 5) lines.length) (i + 1) with
      | some s => s
      | none => descLoop lines (i + 1) ls
    else descLoop lines (i + 1) ls

/-- extract_description from the source. -/
def extract_description (content : List Char) : List Char :=
  descLoop (splitNl content) 0 ((splitNl content).take 20)

/-- Split at the first occurrence of a separator, returning the parts
before and after it. -/
def splitOnce (sep : List Char) : List Char → Option (List Char × List Char)
  | [] => if leadsWith sep [] then some ([], []) else none
  | c :: t =>
    if leadsWith sep (c :: t) then some ([], (c :: t).drop sep.length)
    else (splitOnce sep t).map (fun p => (c :: p.1, p.2))

/-- The excess-blank-line collapse of clean_markdown: a whitespace run
starting at a newline and containing at least three newlines is replaced,
up to its last newline, by two newlines (the regex substitution of the
source, scanning left to right). -/
def collapseWs : List Char → List Char
  | [] => []
  | c :: t =>
    if c = '\n' ∧ 3 ≤ List.count '\n' ((c :: t).takeWhile isWS) then
      '\n' :: '\n' :: collapseWs
        ((((c :: t).takeWhile isWS).reverse.takeWhile (fun x => !(x == '\n'))).reverse
          ++ (c :: t).drop ((c :: t).takeWhile isWS).length)
    else c :: collapseWs t
termination_by l => l.length
decreasing_by
  · have hx : ∀ (x : List Char),
        ((x ++ ['\n']).takeWhile (fun y => !(y == '\n'))).length ≤ x.length := by
      intro x
      induction x with
      | nil => simp [List.takeWhile_cons]
      | cons a as ih =>
        by_cases ha : a = '\n'
        · simp [List.takeWhile_cons, ha]
        · have hb : (!(a == '\n')) = true := by simp [ha]
          simp only [List.cons_append, List.takeWhile_cons, hb, if_true,
            List.length_cons]
          omega
    have hnl : isWS '\n' = true := by decide
    have key : ∀ (u : List Char),
        ((List.takeWhile (fun x => !x == '\n')
            (List.takeWhile isWS ('\n' :: u)).reverse).reverse ++
          List.drop (List.takeWhile isWS ('\n' :: u)).length ('\n' :: u)).length <
          ('\n' :: u).length := by
      intro u
      have hrun : (('\n' :: u).takeWhile isWS) = '\n' :: u.takeWhile isWS := by
        simp [List.takeWhile_cons, hnl]
      rw [hrun]
      have h1 := hx ((u.takeWhile isWS).reverse)
      have h2 : (u.takeWhile isWS).length ≤ u.length :=
        (List.takeWhile_sublist _).length_le
      simp only [List.reverse_cons] at h1 ⊢
      simp only [List.length_append, List.length_reverse, List.length_drop,
        List.length_cons, List.length_reverse] at h1 ⊢
      omega
    rename_i h
    obtain ⟨hc, -⟩ := h
    subst hc
    exact key _
  · simp only [List.length_cons]
    omega

/-- clean_markdown: strip a frontmatter block delimited by the dash
marker when present (split at the first two occurrences and keep the
rest), collapse excess blank lines, strip. -/
def clean_markdown (content : List Char) : List Char :=
  let c1 :=
    if leadsWith dashesTok content then
      match splitOnce dashesTok content with
      | some p1 =>
        match splitOnce dashesTok p1.2 with
        | some p2 => p2.2
        | none => content
      | none => content
    else content
  pyStrip (collapseWs c1)

/-- ASCII lower-casing of one character. -/
def lowerChar (c : Char) : Char :=
  if 'A' ≤ c ∧ c ≤ 'Z' then Char.ofNat (c.toNat + 32) else c

/-- Python str.lower (ASCII range). -/
def lowerStr (l : List Char) : List Char := l.map lowerChar

/-- Python substring membership test. -/
def isSubstr (q : List Char) : List Char → Bool
  | [] => leadsWith q []
  | c :: t => leadsWith q (c :: t) || isSubstr q t

/-- Non-overlapping occurrence count for a non-empty needle: scan left
to right, and after a match skip the rest of the matched needle (the
skip counter holds how many characters remain to be skipped). -/
def countNE (q : List Char) : Nat → List Char → Nat
  | _, [] => 0
  | k + 1, _ :: t => countNE q k t
  | 0, c :: t =>
    if leadsWith q (c :: t) then 1 + countNE q (q.length - 1) t
    else countNE q 0 t

/-- Python str.count: non-overlapping occurrences, with the empty needle
counted once per gap. -/
def countOccur (q s : List Char) : Nat :=
  if q = [] then s.length + 1 else countNE q 0 s

/-- One processed documentation page, as assembled by the fetch pipeline. -/
structure Document where
  url : List Char
  markdown_url : List Char
  title : List Char
  description : List Char
  content : List Char
  raw_content : List Char
  chunks : List Chunk
deriving DecidableEq

/-- The in-memory document cache: an insertion-ordered association list
keyed by canonical URL. -/
abbrev Store := List (List Char × Document)

/-- Cache lookup. -/
def lookupStore : Store → List Char → Option Document
  | [], _ => none
  | (k, v) :: t, u => if k = u then some v else lookupStore t u

/-- Cache insertion (overwriting an existing key in place). -/
def storeSet : Store → List Char → Document → Store
  | [], u, d => [(u, d)]
  | (k, v) :: t, u, d => if k = u then (u, d) :: t else (k, v) :: storeSet t u d

/-- One HTTP response: status code, lower-case-ready content-type header
(empty when absent), body text. -/
structure Response where
  status : Nat
  ctype : List Char
  body : List Char
deriving DecidableEq

/-- httpx is_success: a 2xx status. -/
def isSuccessR (r : Response) : Bool :=
  decide (200 ≤ r.status) && decide (r.status < 300)

/-- The retry condition of the fetch helper: 429 or any 5xx status. -/
def isRetryable (r : Response) : Bool :=
  decide (r.status = 429) || (decide (500 ≤ r.status) && decide (r.status < 600))

/-- The network oracle: a URL and an attempt index yield a response or a
raised timeout (modelled as the error case). -/
abbrev Net := List Char → Nat → Except Unit Response

/-- The retry loop of the fetch helper, with the remaining attempt budget
as fuel: a retryable status sleeps for half of two to the attempt index
and retries; a success returns the response; any other status gives up.
The result carries the outcome, the number of requests issued, and the
backoff delays slept. -/
def getFrom (net : Net) (u : List Char) : Nat → Nat → Except Unit (Option Response) × Nat × List ℚ
  | _, 0 => (Except.ok none, 0, [])
  | attempt, fuel + 1 =>
    match net u attempt with
    | Except.error e => (Except.error e, 1, [])
    | Except.ok r =>
      if isRetryable r then
        let rest := getFrom net u (attempt + 1) fuel
        (rest.1, rest.2.1 + 1, ((2 : ℚ) ^ attempt / 2) :: rest.2.2)
      else if isSuccessR r then (Except.ok (some r), 1, [])
      else (Except.ok none, 1, [])

/-- The per-variant request helper of fetch_markdown_content: up to four
attempts starting at attempt index zero. -/
def runGet (net : Net) (u : List Char) : Except Unit (Option Response) × Nat × List ℚ :=
  getFrom net u 0 4

/-- The markdown acceptance heuristic: content-type contains markdown or
text-plain, or the body starts with a hash-space marker, or the body
contains a code-fence marker. -/
def acceptBody (r : Response) : Bool :=
  let ct := lowerStr r.ctype
  isSubstr mdTok ct || isSubstr plainTok ct || leadsWith hashSp r.body
    || isSubstr fenceMark r.body

/-- Acceptance of the first (markdown-variant) response. -/
def accept1 (or1 : Option Response) (mdUrl : List Char) : Option (List Char × List Char) :=
  match or1 with
  | some r => if acceptBody r then some (r.body, mdUrl) else none
  | none => none

/-- Acceptance of the second (original-URL) response, which re-checks
success as in the source. -/
def accept2 (or2 : Option Response) (url : List Char) : Option (List Char × List Char) :=
  match or2 with
  | some r => if isSuccessR r && acceptBody r then some (r.body, url) else none
  | none => none

/-- Assemble a Document from the accepted body, as the success path of
fetch_markdown_content does. -/
def mkDoc (url finalU body : List Char) : Document :=
  { url := url
    markdown_url := finalU
    title := extract_title body
    description := extract_description body
    content := clean_markdown body
    raw_content := body
    chunks := chunk_markdown (clean_markdown body) }

/-- fetch_markdown_content: cache hit short-circuits; otherwise try the
markdown-variant URL, then the original URL, caching and returning the
assembled Document on success and returning the none result otherwise.
The result also carries the number of requests issued and the backoff
delays; a raised timeout propagates as the error case. -/
def fetch (net : Net) (st : Store) (url : List Char) :
    Except Unit (Option Document × Store × Nat × List ℚ) :=
  match lookupStore st url with
  | some d => Except.ok (some d, st, 0, [])
  | none =>
    let mdUrl := if trailsWith mdExt url then url else url ++ mdExt
    match runGet net mdUrl with
    | (Except.error e, _, _) => Except.error e
    | (Except.ok or1, n1, d1) =>
      match accept1 or1 mdUrl with
      | some bf =>
        let doc := mkDoc url bf.2 bf.1
        Except.ok (some doc, storeSet st url doc, n1, d1)
      | none =>
        match runGet net url with
        | (Except.error e, _, _) => Except.error e
        | (Except.ok or2, n2, d2) =>
          match accept2 or2 url with
          | some bf =>
            let doc := mkDoc url bf.2 bf.1
            Except.ok (some doc, storeSet st url doc, n1 + n2, d1 ++ d2)
          | none => Except.ok (none, st, n1 + n2, d1 ++ d2)

/-- Stable descending insertion by a rational key (the behaviour of the
Python stable sort with reverse ordering). -/
def insertDesc {α : Type} (key : α → ℚ) (x : α) : List α → List α
  | [] => [x]
  | y :: ys => if key y ≤ key x then x :: y :: ys else y :: insertDesc key x ys

/-- Stable descending sort by a rational key. -/
def sortDescBy {α : Type} (key : α → ℚ) : List α → List α
  | [] => []
  | x :: xs => insertDesc key x (sortDescBy key xs)

/-- Stable ascending insertion by a rational key. -/
def insertAsc {α : Type} (key : α → ℚ) (x : α) : List α → List α
  | [] => [x]
  | y :: ys => if key x ≤ key y then x :: y :: ys else y :: insertAsc key x ys

/-- Ascending sort by a rational key (modelling the numpy argsort order). -/
def sortAscBy {α : Type} (key : α → ℚ) : List α → List α
  | [] => []
  | x :: xs => insertAsc key x (sortAscBy key xs)

/-- The lexical score computed by simple_search for one stored document:
three for a title hit, two for a description hit, plus the occurrence
count of the query in the content when present. -/
def docScore (ql : List Char) (d : Document) : Nat :=
  let s1 := if isSubstr ql (lowerStr d.title) then 3 else 0
  let s2 := s1 + (if isSubstr ql (lowerStr d.description) then 2 else 0)
  s2 + (if isSubstr ql (lowerStr d.content) then countOccur ql (lowerStr d.content) else 0)

/-- The lexical score in the form stated by the specification: three
times the title indicator plus two times the description indicator plus
the content occurrence count. -/
def lexScoreSpec (query : List Char) (d : Document) : Nat :=
  let ql := lowerStr query
  3 * (if isSubstr ql (lowerStr d.title) then 1 else 0)
    + 2 * (if isSubstr ql (lowerStr d.description) then 1 else 0)
    + countOccur ql (lowerStr d.content)

/-- simple_search: score every cached document, keep positive scores with
similarity the score over ten, sort descending by similarity, truncate. -/
def simple_search (st : Store) (query : List Char) (limit : Nat) : List (Document × ℚ) :=
  let ql := lowerStr query
  let results := st.filterMap (fun p =>
    let score := docScore ql p.2
    if 0 < score then some (p.2, (score : ℚ) / 10) else none)
  (sortDescBy (fun r => r.2) results).take limit

/-- Metadata of one embedded chunk (the parallel-array entry of the
embedding index). -/
structure DocMeta where
  url : List Char
  markdown_url : List Char
  title : List Char
  heading : List Char
  snippet : List Char
deriving DecidableEq, Inhabited

/-- The vector ranking path of search_documents: ascending argsort of
the similarity scores, reversed, truncated, each index paired with its
score. -/
def vector_search (sims : List ℚ) (docs : List DocMeta) (limit : Nat) :
    List (DocMeta × ℚ) :=
  let idxs := ((sortAscBy (fun i => sims.getD i 0) (List.range sims.length)).reverse).take limit
  idxs.map (fun i => (docs.getD i default, sims.getD i 0))

/-- search_documents: with a built embedding index use the vector path,
otherwise fall back to the lexical scorer. -/
def search_documents (idx : Option (List ℚ × List DocMeta)) (st : Store)
    (query : List Char) (limit : Nat) : List (Sum DocMeta Document × ℚ) :=
  match idx with
  | some si => (vector_search si.1 si.2 limit).map (fun r => (Sum.inl r.1, r.2))
  | none => (simple_search st query limit).map (fun r => (Sum.inr r.1, r.2))

/-- Python max over a non-empty list (zero for the empty list, matching
the zero-confidence branch of answer_question). -/
def maxQ : List ℚ → ℚ
  | [] => 0
  | x :: xs => xs.foldl max x

/-- The confidence computed by answer_question: the maximum similarity
among the top-three retrieved results, zero when nothing is retrieved. -/
def answer_confidence (idx : Option (List ℚ × List DocMeta)) (st : Store)
    (question : List Char) : ℚ :=
  let rs := search_documents idx st question 3
  if rs.isEmpty then 0 else maxQ (rs.map (fun r => r.2))

def vfBase : List Char := strL "https://docs.voiceflow.com"
def refPre : List Char := vfBase ++ strL "/reference"
def docsPre : List Char := vfBase ++ strL "/docs"
def changelogTok : List Char := strL "/changelog"

/-- The candidate ordering built by warmup: the reference-prefixed URLs,
then the docs-prefixed URLs, then every URL not containing the changelog
segment. -/
def warmupCandidates (urls : List (List Char)) : List (List Char) :=
  urls.filter (fun u => leadsWith refPre u)
    ++ urls.filter (fun u => leadsWith docsPre u)
    ++ urls.filter (fun u => !isSubstr changelogTok u)

/-- Concrete data for witnesses and counterexamples. -/
def urlRefA : List Char := strL "https://docs.voiceflow.com/reference/a"
def exTitleInput : List Char := strL "---\ntitle: X\n---\n# Heading\nBody text"
def urlX : List Char := strL "https://docs.voiceflow.com/docs/x"
def bodyX : List Char := strL "# T\nhello"
def docX : Document := mkDoc urlX (urlX ++ mdExt) bodyX
def stX : Store := [(urlX, docX)]
def netTimeout : Net := fun _ _ => Except.error ()
def net404 : Net := fun _ _ => Except.ok { status := 404, ctype := [], body := [] }
def net500 : Net := fun _ _ => Except.ok { status := 500, ctype := [], body := [] }
def netOkMd : Net := fun _ _ =>
  Except.ok { status := 200, ctype := strL "text/markdown", body := bodyX }

def authDoc : Document :=
  { url := strL "https://x/a"
    markdown_url := strL "https://x/a.md"
    title := strL "Auth Guide"
    description := []
    content := strL "auth here and auth there"
    raw_content := []
    chunks := [] }
def authStore : Store := [(authDoc.url, authDoc)]

def spamDoc : Document :=
  { url := strL "https://x/s"
    markdown_url := strL "https://x/s.md"
    title := strL "Guide"
    description := []
    content := strL "auth auth auth auth auth auth auth auth auth auth auth"
    raw_content := []
    chunks := [] }
def spamStore : Store := [(spamDoc.url, spamDoc)]

def mdEx : List Char :=
  strL "# A\nalpha\n```\n# inside fence\n```\n## B\nbeta"

/-- Append one character to the last segment of a segment list (used to
describe splitting a string extended by one character). -/
def addTail (x : Char) : List (List Char) → List (List Char)
  | [] => [[x]]
  | [s] => [s ++ [x]]
  | s :: s2 :: ss => s :: addTail x (s2 :: ss)

/-- Whitespace-erased concatenation of the markdown of a chunk list. -/
def chunksE (cs : List Chunk) : List Char :=
  joinAll (cs.map (fun c => ews c.markdown))

/-- Whitespace-erased concatenation of a list of lines. -/
def bufE (bs : List (List Char)) : List Char := joinAll (bs.map ews)

/-! Helper lemmas about the sorting routines. -/

theorem mem_insertDesc {α : Type} (key : α → ℚ) (x y : α) (l : List α)
    (h : y ∈ insertDesc key x l) : y = x ∨ y ∈ l := by
  induction l with
  | nil =>
    simp only [insertDesc, List.mem_singleton] at h
    exact Or.inl h
  | cons a as ih =>
    simp only [insertDesc] at h
    split at h
    · rcases List.mem_cons.1 h with h1 | h2
      · exact Or.inl h1
      · exact Or.inr h2
    · rcases List.mem_cons.1 h with h1 | h2
      · exact Or.inr (by rw [h1]; exact List.mem_cons_self a as)
      · rcases ih h2 with h3 | h4
        · exact Or.inl h3
        · exact Or.inr (List.mem_cons_of_mem a h4)

theorem mem_sortDescBy {α : Type} (key : α → ℚ) (l : List α) (y : α)
    (h : y ∈ sortDescBy key l) : y ∈ l := by
  induction l generalizing y with
  | nil =>
    rw [sortDescBy] at h
    exact h
  | cons a as ih =>
    simp only [sortDescBy] at h
    rcases mem_insertDesc key a y _ h with h1 | h2
    · rw [h1]; exact List.mem_cons_self a as
    · exact List.mem_cons_of_mem a (ih _ h2)

theorem pairwise_insertDesc {α : Type} (key : α → ℚ) (x : α) (l : List α)
    (h : l.Pairwise (fun a b => key b ≤ key a)) :
    (insertDesc key x l).Pairwise (fun a b => key b ≤ key a) := by
  induction l with
  | nil => simp [insertDesc]
  | cons a as ih =>
    rcases List.pairwise_cons.1 h with ⟨ha, has⟩
    simp only [insertDesc]
    split
    · rename_i hc
      refine List.pairwise_cons.2 ⟨?_, h⟩
      intro b hb
      rcases List.mem_cons.1 hb with h1 | hbs
      · rw [h1]; exact hc
      · exact le_trans (ha b hbs) hc
    · rename_i hc
      refine List.pairwise_cons.2 ⟨?_, ih has⟩
      intro b hb
      rcases mem_insertDesc key x b as hb with h1 | hbs
      · rw [h1]; exact le_of_not_le hc
      · exact ha b hbs

theorem pairwise_sortDescBy {α : Type} (key : α → ℚ) (l : List α) :
    (sortDescBy key l).Pairwise (fun a b => key b ≤ key a) := by
  induction l with
  | nil => simp [sortDescBy]
  | cons a as ih => exact pairwise_insertDesc key a _ ih

theorem mem_insertAsc {α : Type} (key : α → ℚ) (x y : α) (l : List α)
    (h : y ∈ insertAsc key x l) : y = x ∨ y ∈ l := by
  induction l with
  | nil =>
    simp only [insertAsc, List.mem_singleton] at h
    exact Or.inl h
  | cons a as ih =>
    simp only [insertAsc] at h
    split at h
    · rcases List.mem_cons.1 h with h1 | h2
      · exact Or.inl h1
      · exact Or.inr h2
    · rcases List.mem_cons.1 h with h1 | h2
      · exact Or.inr (by rw [h1]; exact List.mem_cons_self a as)
      · rcases ih h2 with h3 | h4
        · exact Or.inl h3
        · exact Or.inr (List.mem_cons_of_mem a h4)

theorem pairwise_insertAsc {α : Type} (key : α → ℚ) (x : α) (l : List α)
    (h : l.Pairwise (fun a b => key a ≤ key b)) :
    (insertAsc key x l).Pairwise (fun a b => key a ≤ key b) := by
  induction l with
  | nil => simp [insertAsc]
  | cons a as ih =>
    rcases List.pairwise_cons.1 h with ⟨ha, has⟩
    simp only [insertAsc]
    split
    · rename_i hc
      refine List.pairwise_cons.2 ⟨?_, h⟩
      intro b hb
      rcases List.mem_cons.1 hb with h1 | hbs
      · rw [h1]; exact hc
      · exact le_trans hc (ha b hbs)
    · rename_i hc
      refine List.pairwise_cons.2 ⟨?_, ih has⟩
      intro b hb
      rcases mem_insertAsc key x b as hb with h1 | hbs
      · rw [h1]; exact le_of_not_le hc
      · exact ha b hbs

theorem pairwise_sortAscBy {α : Type} (key : α → ℚ) (l : List α) :
    (sortAscBy key l).Pairwise (fun a b => key a ≤ key b) := by
  induction l with
  | nil => simp [sortAscBy]
  | cons a as ih => exact pairwise_insertAsc key a _ ih

/-- Claim C5 (ranking order and limit): for every index state, cache
state, query and limit, search_documents returns at most limit results
and their similarities are non-increasing in result order, on both the
vector path and the lexical fallback path. -/
theorem ranking_order (idx : Option (List ℚ × List DocMeta)) (st : Store)
    (q : List Char) (limit : Nat) :
    (search_documents idx st q limit).length ≤ limit ∧
    (search_documents idx st q limit).Pairwise (fun a b => b.2 ≤ a.2) := by
  cases idx with
  | none =>
    simp only [search_documents, simple_search]
    constructor
    · rw [List.length_map]
      exact List.length_take_le _ _
    · rw [List.pairwise_map]
      exact ((pairwise_sortDescBy (fun r : Document × ℚ => r.2) _).sublist
        (List.take_sublist _ _))
  | some si =>
    simp only [search_documents, vector_search]
    constructor
    · rw [List.length_map, List.length_map]
      exact List.length_take_le _ _
    · rw [List.pairwise_map, List.pairwise_map]
      refine List.Pairwise.sublist (List.take_sublist _ _) ?_
      exact (List.pairwise_reverse).2
        (by simpa [flip] using pairwise_sortAscBy (fun i => si.1.getD i 0) (List.range si.1.length))

/-! Title extraction (claim C6). -/

/-- Counterexample to claim C6 as stated: on the frontmatter input the
extracted title is exactly the frontmatter value, because the scan
returns at the first line matching either pattern, so an earlier
title-prefixed line beats a later hash heading. -/
theorem extract_title_frontmatter : extract_title exTitleInput = strL "X" := by decide

theorem titleScan_find (ls : List (List Char)) :
    titleScan ls =
      match ls.find? (fun l => leadsWith hashSp l || leadsWith titleTok l) with
      | some l => if leadsWith hashSp l then pyStrip (l.drop 2) else pyStrip (l.drop 6)
      | none => strL "Untitled" := by
  induction ls with
  | nil => simp [titleScan, List.find?]
  | cons l ls ih =>
    by_cases h1 : leadsWith hashSp l
    · simp [titleScan, List.find?_cons, h1]
    · by_cases h2 : leadsWith titleTok l
      · simp [titleScan, List.find?_cons, h1, h2]
      · simp [titleScan, List.find?_cons, h1, h2, ih]

/-- Claim C6, amended: extract_title scans the first 10 lines and the
first line starting with either marker wins — a hash heading does not
take priority over an earlier title-prefixed line — and on the
frontmatter scenario input the result is the frontmatter value. -/
theorem extract_title_first_match :
    (∀ content : List Char, extract_title content = titleFirstMatch content) ∧
    extract_title exTitleInput = strL "X" := by
  constructor
  · intro content
    rw [extract_title, titleFirstMatch, titleScan_find]
  · decide

/-! Warm-up candidate ordering (claim C7). -/

/-- Counterexample to claim C7 as stated: a reference-prefixed URL that
does not contain the changelog segment appears twice in the candidate
sequence (once in the reference bucket and again in the non-changelog
bucket), so sitemap URLs do not occur at most once. -/
theorem warmup_candidates_duplicate :
    List.count urlRefA (warmupCandidates [urlRefA]) = 2 := by decide

theorem count_filterList (p : List Char → Bool) (l : List (List Char)) (u : List Char) :
    List.count u (l.filter p) = if p u then List.count u l else 0 := by
  induction l with
  | nil => simp
  | cons a t ih =>
    by_cases hpa : p a
    · by_cases hau : a = u
      · subst hau
        simp [List.filter_cons, hpa, List.count_cons, ih]
      · have : (a == u) = false := by simp [hau]
        simp [List.filter_cons, hpa, List.count_cons, this, ih]
    · by_cases hau : a = u
      · subst hau
        simp only [List.filter_cons, Bool.not_eq_true] at *
        simp [hpa, List.count_cons, ih]
      · have : (a == u) = false := by simp [hau]
        simp [List.filter_cons, hpa, List.count_cons, this, ih]

/-- Claim C7, amended: the candidate sequence warmup iterates is the
reference-prefixed URLs in sitemap order, then the docs-prefixed URLs,
then every sitemap URL not containing the changelog segment (including
reference and docs URLs again); each URL therefore occurs once per
bucket it matches — up to twice — and a URL matching no bucket never
appears as a candidate. -/
theorem warmup_candidate_multiplicity (urls : List (List Char)) (u : List Char) :
    List.count u (warmupCandidates urls) =
      List.count u urls *
        ((if leadsWith refPre u then 1 else 0) + (if leadsWith docsPre u then 1 else 0)
          + (if !isSubstr changelogTok u then 1 else 0)) := by
  unfold warmupCandidates
  rw [List.count_append, List.count_append, count_filterList, count_filterList,
    count_filterList]
  by_cases h1 : leadsWith refPre u <;> by_cases h2 : leadsWith docsPre u <;>
    by_cases h3 : isSubstr changelogTok u <;> simp [h1, h2, h3] <;> ring

/-! Lexical fallback scoring (claims C8 and C10). -/

theorem isSubstr_nil_true (s : List Char) : isSubstr [] s = true := by
  cases s <;> simp [isSubstr, leadsWith]

theorem countNE_eq_zero (q s : List Char) (h : isSubstr q s = false) :
    countNE q 0 s = 0 := by
  induction s with
  | nil => simp [countNE]
  | cons c t ih =>
    simp only [isSubstr, Bool.or_eq_false_iff] at h
    obtain ⟨h1, h2⟩ := h
    rw [countNE, if_neg (by simp [h1])]
    exact ih h2

theorem countOccur_eq_zero (q s : List Char) (h : isSubstr q s = false) :
    countOccur q s = 0 := by
  rw [countOccur]
  split
  · rename_i hq
    rw [hq, isSubstr_nil_true] at h
    cases h
  · exact countNE_eq_zero q s h

theorem docScore_eq_spec (q : List Char) (d : Document) :
    docScore (lowerStr q) d = lexScoreSpec q d := by
  have hco : isSubstr (lowerStr q) (lowerStr d.content) = false →
      countOccur (lowerStr q) (lowerStr d.content) = 0 :=
    countOccur_eq_zero _ _
  simp only [docScore, lexScoreSpec]
  by_cases h1 : isSubstr (lowerStr q) (lowerStr d.title) <;>
    by_cases h2 : isSubstr (lowerStr q) (lowerStr d.description) <;>
    by_cases h3 : isSubstr (lowerStr q) (lowerStr d.content) <;>
    simp [h1, h2, h3, hco]

/-- Claim C8 (lexical fallback scoring): every result of simple_search
carries similarity equal to the specified score (three times the title
indicator plus two times the description indicator plus the content
occurrence count) divided by ten, zero-scored documents are excluded,
and on the scenario store (title hit, no description hit, two content
occurrences) the single result has similarity one half. -/
theorem lexical_fallback_scoring :
    (∀ (st : Store) (q : List Char) (limit : Nat) (d : Document) (s : ℚ),
        (d, s) ∈ simple_search st q limit →
        s = (lexScoreSpec q d : ℚ) / 10 ∧ 0 < lexScoreSpec q d) ∧
    simple_search authStore (strL "Auth") 5 = [(authDoc, 1/2)] := by
  constructor
  · intro st q limit d s hmem
    simp only [simple_search] at hmem
    have h1 := List.mem_of_mem_take hmem
    have h2 := mem_sortDescBy (fun r : Document × ℚ => r.2) _ _ h1
    rcases List.mem_filterMap.1 h2 with ⟨p, _, heq⟩
    split at heq
    · rename_i hpos
      injection heq with h3
      injection h3 with hd hsim
      subst hd
      rw [docScore_eq_spec] at hpos hsim
      exact ⟨hsim.symm, hpos⟩
    · cases heq
  · have hs : docScore (lowerStr (strL "Auth")) authDoc = 5 := by decide
    simp [simple_search, authStore, List.filterMap_cons, hs, sortDescBy, insertDesc]
    norm_num

/-- Witness for the lexical scoring claim at the scenario input. -/
theorem lexical_fallback_scoring_witness :
    ((authDoc, (1 : ℚ)/2) ∈ simple_search authStore (strL "Auth") 5) ∧
    ((1 : ℚ)/2 = (lexScoreSpec (strL "Auth") authDoc : ℚ) / 10 ∧
      0 < lexScoreSpec (strL "Auth") authDoc) := by
  have hmem : (authDoc, (1 : ℚ)/2) ∈ simple_search authStore (strL "Auth") 5 := by
    rw [lexical_fallback_scoring.2]
    exact List.mem_singleton.2 rfl
  exact ⟨hmem, lexical_fallback_scoring.1 authStore (strL "Auth") 5 authDoc _ hmem⟩

/-- Claim C10 (similarity not bounded by one): with one cached document
whose content holds the query eleven times, the lexical path returns
similarity eleven tenths, strictly above one, and the answer confidence
(the maximum retrieved similarity) exceeds one as well. -/
theorem similarity_unbounded :
    simple_search spamStore (strL "auth") 3 = [(spamDoc, 11/10)] ∧
    (1 : ℚ) < 11/10 ∧
    (1 : ℚ) < answer_confidence none spamStore (strL "auth") := by
  have hs : docScore (lowerStr (strL "auth")) spamDoc = 11 := by decide
  have hlist : simple_search spamStore (strL "auth") 3 = [(spamDoc, 11/10)] := by
    simp [simple_search, spamStore, List.filterMap_cons, hs, sortDescBy, insertDesc]
  refine ⟨hlist, by norm_num, ?_⟩
  simp only [answer_confidence, search_documents, hlist]
  simp [maxQ]
  norm_num

/-! The fetch pipeline (claims C3, C4 and C9). -/

theorem lookupStore_storeSet (st : Store) (u : List Char) (d : Document) :
    lookupStore (storeSet st u d) u = some d := by
  induction st with
  | nil => simp [storeSet, lookupStore]
  | cons p t ih =>
    obtain ⟨k, v⟩ := p
    by_cases h : k = u
    · simp [storeSet, h, lookupStore]
    · simp [storeSet, h, lookupStore, ih]

/-- Exhaustive case analysis of the fetch pipeline: a cache hit returns
the stored document with the store unchanged and no requests; otherwise
the call either propagates a raised timeout, stores and returns an
assembled document, or returns the none result with the store unchanged. -/
theorem fetch_cases (net : Net) (st : Store) (url : List Char) :
    (∃ d, lookupStore st url = some d ∧
      fetch net st url = Except.ok (some d, st, 0, [])) ∨
    (lookupStore st url = none ∧ ∃ e, fetch net st url = Except.error e) ∨
    (lookupStore st url = none ∧ ∃ body finalU n ds,
      fetch net st url =
        Except.ok (some (mkDoc url finalU body), storeSet st url (mkDoc url finalU body), n, ds)) ∨
    (lookupStore st url = none ∧ ∃ n ds,
      fetch net st url = Except.ok (none, st, n, ds)) := by
  cases hc : lookupStore st url with
  | some d =>
    refine Or.inl ⟨d, rfl, ?_⟩
    unfold fetch
    rw [hc]
  | none =>
    rcases hg1 : runGet net (if trailsWith mdExt url then url else url ++ mdExt)
      with ⟨r1, n1, d1⟩
    cases r1 with
    | error e =>
      refine Or.inr (Or.inl ⟨rfl, e, ?_⟩)
      unfold fetch
      simp only [hc, hg1]
    | ok or1 =>
      cases ha1 : accept1 or1 (if trailsWith mdExt url then url else url ++ mdExt) with
      | some bf =>
        refine Or.inr (Or.inr (Or.inl ⟨rfl, bf.1, bf.2, n1, d1, ?_⟩))
        unfold fetch
        simp only [hc, hg1, ha1]
      | none =>
        rcases hg2 : runGet net url with ⟨r2, n2, d2⟩
        cases r2 with
        | error e =>
          refine Or.inr (Or.inl ⟨rfl, e, ?_⟩)
          unfold fetch
          simp only [hc, hg1, ha1, hg2]
        | ok or2 =>
          cases ha2 : accept2 or2 url with
          | some bf =>
            refine Or.inr (Or.inr (Or.inl ⟨rfl, bf.1, bf.2, n1 + n2, d1 ++ d2, ?_⟩))
            unfold fetch
            simp only [hc, hg1, ha1, hg2, ha2]
          | none =>
            refine Or.inr (Or.inr (Or.inr ⟨rfl, n1 + n2, d1 ++ d2, ?_⟩))
            unfold fetch
            simp only [hc, hg1, ha1, hg2, ha2]

/-- Claim C3 (idempotent fetch): a URL already present in the store is
returned immediately with no requests and no store mutation, and after
any successful fetch a second call on any network state returns the
identical document with no requests and no store mutation. -/
theorem idempotent_fetch :
    (∀ (net : Net) (st : Store) (url : List Char) (d : Document),
        lookupStore st url = some d →
        fetch net st url = Except.ok (some d, st, 0, [])) ∧
    (∀ (net : Net) (st : Store) (url : List Char) (d : Document) (st1 : Store)
        (n : Nat) (ds : List ℚ),
        fetch net st url = Except.ok (some d, st1, n, ds) →
        ∀ net2 : Net, fetch net2 st1 url = Except.ok (some d, st1, 0, [])) := by
  constructor
  · intro net st url d h
    unfold fetch
    rw [h]
  · intro net st url d st1 n ds h net2
    have hl : lookupStore st1 url = some d := by
      rcases fetch_cases net st url with ⟨d0, hc, he⟩ | ⟨hc, e, he⟩ |
        ⟨hc, body, fu, n', ds', he⟩ | ⟨hc, n', ds', he⟩
      · rw [he] at h
        injection h with h'
        injection h' with h1 h2
        injection h2 with h2 h3
        injection h1 with h1
        rw [← h2, ← h1]
        exact hc
      · rw [he] at h
        simp at h
      · rw [he] at h
        injection h with h'
        injection h' with h1 h2
        injection h2 with h2 h3
        injection h1 with h1
        rw [← h2, ← h1]
        exact lookupStore_storeSet st url (mkDoc url fu body)
      · rw [he] at h
        simp at h
    unfold fetch
    rw [hl]

/-- Witness for the idempotent-fetch claim: a concrete cache hit and the
repeat call after it, under a network that would raise on any request. -/
theorem idempotent_fetch_witness :
    fetch netTimeout stX urlX = Except.ok (some docX, stX, 0, []) ∧
    (∀ net2 : Net, fetch net2 stX urlX = Except.ok (some docX, stX, 0, [])) := by
  have h : lookupStore stX urlX = some docX := rfl
  refine ⟨idempotent_fetch.1 netTimeout stX urlX docX h, ?_⟩
  exact idempotent_fetch.2 netTimeout stX urlX docX stX 0 []
    (idempotent_fetch.1 netTimeout stX urlX docX h)

/-- Claim C9 (failure is not memoized): a fetch that ends with no usable
body leaves the store unchanged, so a subsequent call runs exactly as a
fresh call on the same store; only a successful fetch writes the cache. -/
theorem failure_not_memoized :
    ∀ (net : Net) (st : Store) (url : List Char) (st1 : Store) (n : Nat) (ds : List ℚ),
      fetch net st url = Except.ok (none, st1, n, ds) →
      st1 = st ∧ ∀ net2 : Net, fetch net2 st1 url = fetch net2 st url := by
  intro net st url st1 n ds h
  have hst : st1 = st := by
    rcases fetch_cases net st url with ⟨d0, hc, he⟩ | ⟨hc, e, he⟩ |
      ⟨hc, body, fu, n', ds', he⟩ | ⟨hc, n', ds', he⟩
    · rw [he] at h
      simp at h
    · rw [he] at h
      simp at h
    · rw [he] at h
      simp at h
    · rw [he] at h
      injection h with h'
      injection h' with h1 h2
      injection h2 with h2 h3
      exact h2.symm
  exact ⟨hst, fun net2 => by rw [hst]⟩

/-- Witness for the failure-not-memoized claim at a network that always
returns a plain 404. -/
theorem failure_not_memoized_witness :
    fetch net404 [] urlX = Except.ok (none, ([] : Store), 2, []) ∧
    (([] : Store) = [] ∧ ∀ net2 : Net, fetch net2 [] urlX = fetch net2 [] urlX) :=
  ⟨rfl, failure_not_memoized net404 [] urlX [] 2 [] rfl⟩

/-! The retry policy (claim C4). -/

theorem getFrom_pos (net : Net) (u : List Char) (a fuel : Nat) (h : 0 < fuel) :
    0 < (getFrom net u a fuel).2.1 := by
  cases fuel with
  | zero => cases h
  | succ f =>
    cases hn : net u a with
    | error e => simp [getFrom, hn]
    | ok r =>
      by_cases hrt : isRetryable r
      · simp [getFrom, hn, hrt]
      · by_cases hs : isSuccessR r <;> simp [getFrom, hn, hrt, hs]

/-- Characterisation of the retry loop: at most fuel requests, one
backoff delay per retried attempt with the doubling schedule, a retry
happens only on a retryable status, a non-retryable response ends the
attempts immediately, and a retryable response within the budget is
followed by another attempt. -/
theorem getFrom_spec (net : Net) (u : List Char) :
    ∀ (fuel a : Nat),
      (getFrom net u a fuel).2.1 ≤ fuel ∧
      (getFrom net u a fuel).2.2.length ≤ (getFrom net u a fuel).2.1 ∧
      (getFrom net u a fuel).2.2 =
        (List.range (getFrom net u a fuel).2.2.length).map
          (fun k => (2 : ℚ) ^ (a + k) / 2) ∧
      (∀ k, k < (getFrom net u a fuel).2.2.length →
        ∃ r, net u (a + k) = Except.ok r ∧ isRetryable r = true) ∧
      (∀ k r, k < (getFrom net u a fuel).2.1 → net u (a + k) = Except.ok r →
        isRetryable r = false → (getFrom net u a fuel).2.1 = k + 1) ∧
      (∀ k r, k < (getFrom net u a fuel).2.1 → net u (a + k) = Except.ok r →
        isRetryable r = true → k + 1 < fuel → k + 1 < (getFrom net u a fuel).2.1) := by
  intro fuel
  induction fuel with
  | zero =>
    intro a
    simp [getFrom]
  | succ f ih =>
    intro a
    cases hn : net u a with
    | error e =>
      have hout : getFrom net u a (f + 1) = (Except.error e, 1, []) := by
        simp [getFrom, hn]
      rw [hout]
      dsimp only
      refine ⟨by omega, by simp, by simp, ?_, ?_, ?_⟩
      · intro k hk
        simp at hk
      · intro k r hk hr hnr
        omega
      · intro k r hk hr hrt hk4
        have hk0 : k = 0 := by omega
        subst hk0
        rw [Nat.add_zero, hn] at hr
        cases hr
    | ok r =>
      by_cases hrt : isRetryable r
      · have hout : getFrom net u a (f + 1) =
            ((getFrom net u (a + 1) f).1, (getFrom net u (a + 1) f).2.1 + 1,
              ((2 : ℚ) ^ a / 2) :: (getFrom net u (a + 1) f).2.2) := by
          simp [getFrom, hn, hrt]
        obtain ⟨ih1, ih2, ih3, ih4, ih5, ih6⟩ := ih (a + 1)
        rw [hout]
        dsimp only
        refine ⟨by omega, by simp only [List.length_cons]; omega, ?_, ?_, ?_, ?_⟩
        · simp only [List.length_cons]
          rw [List.range_succ_eq_map, List.map_cons, List.map_map]
          have hfe : ((fun k => (2 : ℚ) ^ (a + k) / 2) ∘ Nat.succ)
              = (fun k => (2 : ℚ) ^ (a + 1 + k) / 2) := by
            funext k
            have hx : a + Nat.succ k = a + 1 + k := by omega
            simp only [Function.comp_apply, hx]
          rw [hfe, ← ih3]
          simp
        · intro k hk
          simp only [List.length_cons] at hk
          cases k with
          | zero =>
            refine ⟨r, ?_, hrt⟩
            rw [Nat.add_zero]
            exact hn
          | succ j =>
            obtain ⟨r', hr', hrt'⟩ := ih4 j (by omega)
            refine ⟨r', ?_, hrt'⟩
            rw [(by omega : a + (j + 1) = a + 1 + j)]
            exact hr'
        · intro k r0 hk hr0 hnr0
          cases k with
          | zero =>
            rw [Nat.add_zero, hn] at hr0
            injection hr0 with hr0
            rw [← hr0, hrt] at hnr0
            cases hnr0
          | succ j =>
            have hj : j < (getFrom net u (a + 1) f).2.1 := by omega
            have h5 := ih5 j r0 hj
              (by rw [(by omega : a + 1 + j = a + (j + 1))]; exact hr0) hnr0
            omega
        · intro k r0 hk hr0 hrt0 hk4
          cases k with
          | zero =>
            have hpos : 0 < (getFrom net u (a + 1) f).2.1 :=
              getFrom_pos net u (a + 1) f (by omega)
            omega
          | succ j =>
            have hj : j < (getFrom net u (a + 1) f).2.1 := by omega
            have h6 := ih6 j r0 hj
              (by rw [(by omega : a + 1 + j = a + (j + 1))]; exact hr0) hrt0 (by omega)
            omega
      · by_cases hs : isSuccessR r
        · have hout : getFrom net u a (f + 1) = (Except.ok (some r), 1, []) := by
            simp [getFrom, hn, hrt, hs]
          rw [hout]
          dsimp only
          refine ⟨by omega, by simp, by simp, ?_, ?_, ?_⟩
          · intro k hk
            simp at hk
          · intro k r0 hk hr0 hnr0
            omega
          · intro k r0 hk hr0 hrt0 hk4
            have hk0 : k = 0 := by omega
            subst hk0
            rw [Nat.add_zero, hn] at hr0
            injection hr0 with hr0
            rw [← hr0] at hrt0
            exact absurd hrt0 hrt
        · have hout : getFrom net u a (f + 1) = (Except.ok none, 1, []) := by
            simp [getFrom, hn, hrt, hs]
          rw [hout]
          dsimp only
          refine ⟨by omega, by simp, by simp, ?_, ?_, ?_⟩
          · intro k hk
            simp at hk
          · intro k r0 hk hr0 hnr0
            omega
          · intro k r0 hk hr0 hrt0 hk4
            have hk0 : k = 0 := by omega
            subst hk0
            rw [Nat.add_zero, hn] at hr0
            injection hr0 with hr0
            rw [← hr0] at hrt0
            exact absurd hrt0 hrt

theorem getFrom_ok (net : Net) (u : List Char) (h : ∀ j, (net u j).isOk = true) :
    ∀ fuel a, ∃ or1, (getFrom net u a fuel).1 = Except.ok or1 := by
  intro fuel
  induction fuel with
  | zero => exact fun a => ⟨none, rfl⟩
  | succ f ih =>
    intro a
    cases hn : net u a with
    | error e =>
      have hko := h a
      rw [hn] at hko
      simp [Except.isOk, Except.toBool] at hko
    | ok r =>
      by_cases hrt : isRetryable r
      · obtain ⟨o, ho⟩ := ih (a + 1)
        exact ⟨o, by simp [getFrom, hn, hrt, ho]⟩
      · by_cases hs : isSuccessR r
        · exact ⟨some r, by simp [getFrom, hn, hrt, hs]⟩
        · exact ⟨none, by simp [getFrom, hn, hrt, hs]⟩

/-- Claim C4, amended (retry policy): per URL variant at most four
requests are issued; each backoff delay follows an issued attempt and
the delays double starting from one half; a delay is slept exactly
before a retry, which happens only on a 429 or 5xx status; any other
non-success status ends the variant immediately; a retryable status
within the budget leads to a further attempt; and when no request
raises, fetch returns a result (possibly the none result) rather than
propagating an exception — a raised timeout, by contrast, does
propagate (see the counterexample). -/
theorem retry_policy :
    (∀ (net : Net) (u : List Char),
      (runGet net u).2.1 ≤ 4 ∧
      (runGet net u).2.2.length ≤ (runGet net u).2.1 ∧
      (runGet net u).2.2 =
        (List.range (runGet net u).2.2.length).map (fun k => (2 : ℚ) ^ k / 2) ∧
      (∀ k, k < (runGet net u).2.2.length →
        ∃ r, net u k = Except.ok r ∧ isRetryable r = true) ∧
      (∀ k r, k < (runGet net u).2.1 → net u k = Except.ok r →
        isRetryable r = false → (runGet net u).2.1 = k + 1) ∧
      (∀ k r, k < (runGet net u).2.1 → net u k = Except.ok r →
        isRetryable r = true → k + 1 < 4 → k + 1 < (runGet net u).2.1)) ∧
    (∀ (net : Net) (st : Store) (url : List Char),
      (∀ v j, (net v j).isOk = true) → (fetch net st url).isOk = true) := by
  constructor
  · intro net u
    have H := getFrom_spec net u 4 0
    simp only [Nat.zero_add] at H
    simp only [runGet]
    exact H
  · intro net st url h
    unfold fetch
    cases hc : lookupStore st url with
    | some d => rfl
    | none =>
      obtain ⟨o1, ho1⟩ := getFrom_ok net
        (if trailsWith mdExt url then url else url ++ mdExt) (fun j => h _ j) 4 0
      rcases hg1 : runGet net (if trailsWith mdExt url then url else url ++ mdExt)
        with ⟨r1, n1, d1⟩
      have hr1 : r1 = Except.ok o1 := by
        rw [runGet] at hg1
        rw [hg1] at ho1
        exact ho1
      subst hr1
      cases ha1 : accept1 o1 (if trailsWith mdExt url then url else url ++ mdExt) with
      | some bf =>
        simp only [hg1, ha1]
        rfl
      | none =>
        obtain ⟨o2, ho2⟩ := getFrom_ok net url (fun j => h _ j) 4 0
        rcases hg2 : runGet net url with ⟨r2, n2, d2⟩
        have hr2 : r2 = Except.ok o2 := by
          rw [runGet] at hg2
          rw [hg2] at ho2
          exact ho2
        subst hr2
        cases ha2 : accept2 o2 url with
        | some bf =>
          simp only [hg1, ha1, hg2, ha2]
          rfl
        | none =>
          simp only [hg1, ha1, hg2, ha2]
          rfl

/-- Counterexample to the timeout clause of claim C4 as stated: under a
network whose request raises a timeout, fetch propagates the exception
to its caller instead of degrading to the none (NotFound) result. -/
theorem timeout_escapes_fetch : fetch netTimeout [] urlX = Except.error () := rfl

/-- Witness for the retry-policy claim: under an always-500 network a
backoff delay is slept and the first attempt is retryable; under an
always-404 network fetch returns without an exception. -/
theorem retry_policy_witness :
    (0 < (runGet net500 urlX).2.2.length ∧
      ∃ r, net500 urlX 0 = Except.ok r ∧ isRetryable r = true) ∧
    (fetch net404 [] urlX).isOk = true := by
  refine ⟨⟨by decide, ?_⟩, ?_⟩
  · exact (retry_policy.1 net500 urlX).2.2.2.1 0 (by decide)
  · exact retry_policy.2 net404 [] urlX (fun v j => rfl)

/-! Chunk reconstruction (claim C1). -/

theorem joinAll_append (a b : List (List Char)) :
    joinAll (a ++ b) = joinAll a ++ joinAll b := by
  induction a with
  | nil => simp [joinAll]
  | cons l ls ih => simp [joinAll, ih]

theorem ews_append (a b : List Char) : ews (a ++ b) = ews a ++ ews b := by
  simp [ews, List.filter_append]

theorem ews_cons (c : Char) (l : List Char) : ews (c :: l) = ews [c] ++ ews l := by
  by_cases h : isWS c <;> simp [ews, List.filter_cons, h]

theorem ews_joinAll (L : List (List Char)) :
    ews (joinAll L) = joinAll (L.map ews) := by
  induction L with
  | nil => simp [joinAll, ews]
  | cons l ls ih => simp [joinAll, ews_append, ih]

theorem ews_dropWhile (l : List Char) : ews (l.dropWhile isWS) = ews l := by
  induction l with
  | nil => rfl
  | cons c t ih =>
    by_cases h : isWS c
    · rw [List.dropWhile_cons_of_pos h, ih, ews_cons]
      simp [ews, h]
    · rw [List.dropWhile_cons_of_neg h]

theorem ews_reverse (l : List Char) : ews l.reverse = (ews l).reverse := by
  simp [ews, List.filter_reverse]

theorem ews_dropEndWS (l : List Char) : ews (dropEndWS l) = ews l := by
  unfold dropEndWS
  rw [ews_reverse, ews_dropWhile, ews_reverse, List.reverse_reverse]

theorem ews_pyStrip (l : List Char) : ews (pyStrip l) = ews l := by
  unfold pyStrip
  rw [ews_dropWhile, ews_dropEndWS]

theorem ews_joinLines (bs : List (List Char)) : ews (joinLines bs) = bufE bs := by
  induction bs with
  | nil => rfl
  | cons l ls ih =>
    cases ls with
    | nil => simp [joinLines, bufE, joinAll]
    | cons l2 ls2 =>
      rw [joinLines, ews_append]
      have hnl : ews ('\n' :: joinLines (l2 :: ls2)) = ews (joinLines (l2 :: ls2)) := by
        simp [ews, List.filter_cons, isWS]
      rw [hnl, ih]
      simp [bufE, joinAll]

theorem splitNl_ne_nil (s : List Char) : splitNl s ≠ [] := by
  cases s with
  | nil => simp [splitNl]
  | cons c cs =>
    by_cases h : c = '\n'
    · simp [splitNl, h]
    · simp only [splitNl, if_neg h]
      cases hsp : splitNl cs with
      | nil => simp
      | cons l ls => simp

theorem ews_splitNl (s : List Char) :
    joinAll ((splitNl s).map ews) = ews s := by
  induction s with
  | nil => simp [splitNl, joinAll, ews]
  | cons c cs ih =>
    by_cases h : c = '\n'
    · subst h
      simp only [splitNl, if_pos rfl, List.map_cons, joinAll]
      rw [ih]
      simp [ews, List.filter_cons, isWS]
    · cases hsp : splitNl cs with
      | nil => exact absurd hsp (splitNl_ne_nil cs)
      | cons l ls =>
        rw [hsp] at ih
        simp only [splitNl, if_neg h, hsp, List.map_cons, joinAll] at ih ⊢
        rw [ews_cons c l, ews_cons c cs, List.append_assoc, ← ih]

theorem joinAll_dropTrailEmpty (L : List (List Char)) :
    joinAll ((dropTrailEmpty L).map ews) = joinAll (L.map ews) := by
  induction L with
  | nil => rfl
  | cons l ls ih =>
    cases ls with
    | nil =>
      by_cases h : l = []
      · simp [dropTrailEmpty, h, joinAll, ews]
      · simp [dropTrailEmpty, h]
    | cons l2 ls2 =>
      simp only [dropTrailEmpty, List.map_cons, joinAll]
      rw [ih]
      simp [joinAll]

theorem ews_pySplitlines (s : List Char) : bufE (pySplitlines s) = ews s := by
  unfold pySplitlines bufE
  rw [joinAll_dropTrailEmpty, ews_splitNl]

theorem bufE_append (a b : List (List Char)) : bufE (a ++ b) = bufE a ++ bufE b := by
  simp [bufE, List.map_append, joinAll_append]

theorem flushBuf_buf (st : CState) : (flushBuf st).buf = [] := by
  unfold flushBuf
  split
  · rename_i h
    exact h
  · rfl

theorem flushBuf_inCode (st : CState) : (flushBuf st).inCode = st.inCode := by
  unfold flushBuf
  split <;> rfl

theorem flushBuf_curH (st : CState) : (flushBuf st).curH = st.curH := by
  unfold flushBuf
  split <;> rfl

theorem flushBuf_chunksE (st : CState) :
    chunksE (flushBuf st).chunks = chunksE st.chunks ++ bufE st.buf := by
  unfold flushBuf
  split
  · rename_i h
    simp [h, bufE, joinAll]
  · dsimp only
    split
    · rename_i htext
      have h1 : ews (pyStrip (joinLines st.buf)) = [] := by
        rw [htext]
        rfl
      rw [ews_pyStrip, ews_joinLines] at h1
      simp [h1]
    · rename_i htext
      simp only [chunksE, List.map_append, joinAll_append, List.map_cons,
        List.map_nil, joinAll]
      rw [ews_pyStrip, ews_joinLines]
      simp [chunksE]

theorem chunkStep_ews (st : CState) (ln : List Char) :
    chunksE (chunkStep st ln).chunks ++ bufE (chunkStep st ln).buf
      = chunksE st.chunks ++ bufE st.buf ++ ews ln := by
  unfold chunkStep
  split
  · dsimp only
    rw [bufE_append]
    simp [bufE, joinAll, List.append_assoc]
  · split
    · dsimp only
      rw [flushBuf_buf, flushBuf_chunksE]
      simp [bufE, joinAll, List.append_assoc]
    · dsimp only
      rw [bufE_append]
      simp [bufE, joinAll, List.append_assoc]

theorem chunkFold_ews (lines : List (List Char)) :
    ∀ st : CState,
      chunksE (lines.foldl chunkStep st).chunks
          ++ bufE (lines.foldl chunkStep st).buf
        = chunksE st.chunks ++ bufE st.buf ++ bufE lines := by
  induction lines with
  | nil =>
    intro st
    simp [bufE, joinAll]
  | cons l ls ih =>
    intro st
    rw [List.foldl_cons, ih (chunkStep st l), chunkStep_ews]
    simp [bufE, joinAll, List.append_assoc]

/-- Claim C1 (chunk reconstruction): for every markdown input with
balanced code fences, the concatenation of the markdown of all chunks,
in order, equals the input up to whitespace (the two sides agree after
erasing every whitespace character). -/
theorem chunk_reconstruction (md : List Char) (h : balancedFences md) :
    ews (joinAll ((chunk_markdown md).map (fun c => c.markdown))) = ews md := by
  have hrw : ews (joinAll ((chunk_markdown md).map (fun c => c.markdown)))
      = chunksE (chunk_markdown md) := by
    rw [ews_joinAll, List.map_map]
    rfl
  rw [hrw]
  unfold chunk_markdown
  rw [flushBuf_chunksE, chunkFold_ews (pySplitlines md) ⟨[], [], none, false⟩]
  show chunksE [] ++ bufE [] ++ bufE (pySplitlines md) = ews md
  have h1 : chunksE [] = [] := rfl
  have h2 : bufE [] = [] := rfl
  rw [h1, h2]
  simp only [List.nil_append]
  exact ews_pySplitlines md

/-- Witness for the chunk-reconstruction claim on a concrete balanced
markdown document. -/
theorem chunk_reconstruction_witness :
    balancedFences mdEx ∧
    ews (joinAll ((chunk_markdown mdEx).map (fun c => c.markdown))) = ews mdEx :=
  ⟨by decide, chunk_reconstruction mdEx (by decide)⟩

/-! Fence integrity (claim C2). -/

theorem isFence_nil : isFence [] = false := by decide

theorem dropEndWS_snoc_ws (a : Char) (l : List Char) (h : isWS a = true) :
    dropEndWS (l ++ [a]) = dropEndWS l := by
  unfold dropEndWS
  simp [List.reverse_append, List.dropWhile_cons, h]

theorem pyStrip_snoc_ws (a : Char) (l : List Char) (h : isWS a = true) :
    pyStrip (l ++ [a]) = pyStrip l := by
  unfold pyStrip
  rw [dropEndWS_snoc_ws a l h]

theorem pyStrip_cons_ws (c : Char) (l : List Char) (h : isWS c = true) :
    pyStrip (c :: l) = pyStrip l := by
  unfold pyStrip dropEndWS
  rw [List.reverse_cons, List.dropWhile_append]
  split
  · rename_i he
    have he' : l.reverse.dropWhile isWS = [] := by
      simpa [List.isEmpty_iff] using he
    rw [he']
    simp [List.dropWhile_cons, h]
  · simp [List.reverse_append, List.dropWhile_cons, h]

theorem isFence_cons_ws (c : Char) (l : List Char) (h : isWS c = true) :
    isFence (c :: l) = isFence l := by
  unfold isFence
  rw [pyStrip_cons_ws c l h]

theorem isFence_snoc_ws (a : Char) (l : List Char) (h : isWS a = true) :
    isFence (l ++ [a]) = isFence l := by
  unfold isFence
  rw [pyStrip_snoc_ws a l h]

theorem strFence_cons_ws (c : Char) (t : List Char) (h : isWS c = true) :
    strFence (c :: t) = strFence t := by
  by_cases hn : c = '\n'
  · subst hn
    unfold strFence
    simp [splitNl, fenceLinesCount, List.countP_cons, isFence_nil]
  · cases hsp : splitNl t with
    | nil => exact absurd hsp (splitNl_ne_nil t)
    | cons l ls =>
      unfold strFence
      simp only [splitNl, if_neg hn, hsp]
      simp [fenceLinesCount, List.countP_cons, isFence_cons_ws c l h]

theorem strFence_lstrip (l : List Char) :
    strFence (l.dropWhile isWS) = strFence l := by
  induction l with
  | nil => rfl
  | cons c t ih =>
    by_cases h : isWS c
    · rw [List.dropWhile_cons_of_pos h, ih, strFence_cons_ws c t h]
    · rw [List.dropWhile_cons_of_neg h]

theorem splitNl_snoc (l : List Char) (a : Char) :
    splitNl (l ++ [a]) =
      if a = '\n' then splitNl l ++ [[]] else addTail a (splitNl l) := by
  induction l with
  | nil =>
    by_cases h : a = '\n' <;> simp [splitNl, h, addTail]
  | cons c t ih =>
    by_cases h : a = '\n'
    · subst h
      rw [if_pos rfl] at ih ⊢
      by_cases hc : c = '\n'
      · subst hc
        simp [splitNl, ih]
      · cases hsp : splitNl t with
        | nil => exact absurd hsp (splitNl_ne_nil t)
        | cons s ss =>
          rw [hsp] at ih
          simp [splitNl, hc, ih, hsp]
    · rw [if_neg h] at ih ⊢
      by_cases hc : c = '\n'
      · subst hc
        cases hsp : splitNl t with
        | nil => exact absurd hsp (splitNl_ne_nil t)
        | cons s ss =>
          rw [hsp] at ih
          simp [splitNl, h, ih, hsp, addTail]
      · cases hsp : splitNl t with
        | nil => exact absurd hsp (splitNl_ne_nil t)
        | cons s ss =>
          rw [hsp] at ih
          cases ss with
          | nil => simp [splitNl, hc, h, ih, hsp, addTail]
          | cons s2 ss2 => simp [splitNl, hc, h, ih, hsp, addTail]

theorem addTail_countP (a : Char) (h : isWS a = true) (L : List (List Char)) :
    fenceLinesCount (addTail a L) = fenceLinesCount L := by
  induction L with
  | nil =>
    have hfa : isFence [a] = false := by
      rw [isFence_cons_ws a [] h]
      exact isFence_nil
    simp [addTail, fenceLinesCount, List.countP_cons, hfa]
  | cons s ss ih =>
    cases ss with
    | nil => simp [addTail, fenceLinesCount, List.countP_cons, isFence_snoc_ws a s h]
    | cons s2 ss2 =>
      simp only [addTail, fenceLinesCount, List.countP_cons] at ih ⊢
      simp [ih]

theorem strFence_snoc_ws (a : Char) (h : isWS a = true) (l : List Char) :
    strFence (l ++ [a]) = strFence l := by
  unfold strFence
  rw [splitNl_snoc]
  by_cases hn : a = '\n'
  · simp [hn, fenceLinesCount, List.countP_append, isFence_nil]
  · simp only [if_neg hn]
    exact addTail_countP a h (splitNl l)

theorem strFence_dropEnd (l : List Char) : strFence (dropEndWS l) = strFence l := by
  induction l using List.reverseRecOn with
  | nil => rfl
  | append_singleton t a ih =>
    by_cases h : isWS a
    · rw [dropEndWS_snoc_ws a t h, ih, strFence_snoc_ws a h t]
    · have hid : dropEndWS (t ++ [a]) = t ++ [a] := by
        unfold dropEndWS
        simp [List.reverse_append, List.dropWhile_cons, h]
      rw [hid]

theorem strFence_pyStrip (l : List Char) : strFence (pyStrip l) = strFence l := by
  unfold pyStrip
  rw [strFence_lstrip, strFence_dropEnd]

theorem countP_dropTrailEmpty (L : List (List Char)) :
    fenceLinesCount (dropTrailEmpty L) = fenceLinesCount L := by
  induction L with
  | nil => rfl
  | cons l ls ih =>
    cases ls with
    | nil =>
      by_cases h : l = []
      · simp [dropTrailEmpty, h, fenceLinesCount, isFence_nil]
      · simp [dropTrailEmpty, h]
    | cons l2 ls2 =>
      simp only [dropTrailEmpty, fenceLinesCount, List.countP_cons] at ih ⊢
      simp [ih]

theorem splitNl_noNl (s : List Char) : ∀ l ∈ splitNl s, '\n' ∉ l := by
  induction s with
  | nil =>
    intro l hl
    simp [splitNl] at hl
    simp [hl]
  | cons c cs ih =>
    by_cases h : c = '\n'
    · subst h
      intro l hl
      simp only [splitNl, if_pos rfl] at hl
      cases hl with
      | head => simp
      | tail _ hl2 => exact ih l hl2
    · cases hsp : splitNl cs with
      | nil => exact absurd hsp (splitNl_ne_nil cs)
      | cons s0 ss =>
        intro l hl
        simp only [splitNl, if_neg h, hsp, List.mem_cons] at hl
        rcases hl with hl0 | hl
        · have hs0 : '\n' ∉ s0 := ih s0 (by rw [hsp]; exact List.mem_cons_self _ _)
          rw [hl0]
          intro hmem
          rcases List.mem_cons.1 hmem with heq | hmem2
          · exact h heq.symm
          · exact hs0 hmem2
        · exact ih l (by rw [hsp]; exact List.mem_cons_of_mem _ hl)

theorem mem_dropTrailEmpty (L : List (List Char)) :
    ∀ x ∈ dropTrailEmpty L, x ∈ L := by
  induction L with
  | nil =>
    intro x hx
    simp only [dropTrailEmpty] at hx
    exact hx
  | cons l ls ih =>
    cases ls with
    | nil =>
      intro x hx
      by_cases he : l = []
      · simp [dropTrailEmpty, he] at hx
      · simp [dropTrailEmpty, he] at hx
        simp [hx]
    | cons l2 ls2 =>
      intro x hx
      simp only [dropTrailEmpty, List.mem_cons] at hx
      rcases hx with rfl | hx2
      · exact List.mem_cons_self _ _
      · exact List.mem_cons_of_mem _ (ih x hx2)

theorem pySplitlines_noNl (s : List Char) : ∀ l ∈ pySplitlines s, '\n' ∉ l := by
  intro l hl
  exact splitNl_noNl s l (mem_dropTrailEmpty (splitNl s) l hl)

theorem splitNl_single (l : List Char) (h : '\n' ∉ l) : splitNl l = [l] := by
  induction l with
  | nil => rfl
  | cons c t ih =>
    have hc : ¬ c = '\n' := by
      intro he
      exact h (by rw [he]; exact List.mem_cons_self _ _)
    have ht : '\n' ∉ t := fun hm => h (List.mem_cons_of_mem _ hm)
    simp [splitNl, hc, ih ht]

theorem splitNl_append_nl (l t : List Char) (h : '\n' ∉ l) :
    splitNl (l ++ '\n' :: t) = l :: splitNl t := by
  induction l with
  | nil => simp [splitNl]
  | cons c cs ih =>
    have hc : ¬ c = '\n' := by
      intro he
      exact h (by rw [he]; exact List.mem_cons_self _ _)
    have hcs : '\n' ∉ cs := fun hm => h (List.mem_cons_of_mem _ hm)
    simp [splitNl, hc, ih hcs]

theorem splitNl_joinLines (bs : List (List Char)) (hne : bs ≠ [])
    (hnl : ∀ l ∈ bs, '\n' ∉ l) : splitNl (joinLines bs) = bs := by
  induction bs with
  | nil => exact absurd rfl hne
  | cons l ls ih =>
    cases ls with
    | nil =>
      rw [joinLines]
      exact splitNl_single l (hnl l (List.mem_cons_self _ _))
    | cons l2 ls2 =>
      rw [joinLines, splitNl_append_nl l _ (hnl l (List.mem_cons_self _ _)),
        ih (by simp) (fun x hx => hnl x (List.mem_cons_of_mem _ hx))]

theorem strFence_joinLines (bs : List (List Char)) (hne : bs ≠ [])
    (hnl : ∀ l ∈ bs, '\n' ∉ l) :
    strFence (joinLines bs) = fenceLinesCount bs := by
  unfold strFence
  rw [splitNl_joinLines bs hne hnl]

theorem flushBuf_chunks_fence (st : CState)
    (h1 : ∀ c ∈ st.chunks, fenceLinesCount (pySplitlines c.markdown) % 2 = 0)
    (hbuf : fenceLinesCount st.buf % 2 = 0)
    (h3 : ∀ x ∈ st.buf, '\n' ∉ x) :
    ∀ c ∈ (flushBuf st).chunks, fenceLinesCount (pySplitlines c.markdown) % 2 = 0 := by
  unfold flushBuf
  split
  · exact h1
  · rename_i hne
    dsimp only
    split
    · exact h1
    · intro c hc
      rcases List.mem_append.1 hc with hc | hc
      · exact h1 c hc
      · rw [List.mem_singleton] at hc
        subst hc
        show fenceLinesCount (pySplitlines (pyStrip (joinLines st.buf))) % 2 = 0
        have hch : fenceLinesCount (pySplitlines (pyStrip (joinLines st.buf)))
            = fenceLinesCount st.buf := by
          unfold pySplitlines
          rw [countP_dropTrailEmpty]
          show strFence (pyStrip (joinLines st.buf)) = fenceLinesCount st.buf
          rw [strFence_pyStrip, strFence_joinLines st.buf hne h3]
        rw [hch]
        exact hbuf

theorem chunkStep_inCode (st : CState) (l : List Char) :
    (if (chunkStep st l).inCode then 1 else 0)
      = ((if st.inCode then 1 else 0) + (if isFence l then 1 else 0)) % 2 := by
  unfold chunkStep
  split
  · rename_i hf
    dsimp only
    by_cases hb : st.inCode <;> simp [hb, hf]
  · rename_i hf
    split
    · dsimp only
      rw [flushBuf_inCode]
      by_cases hb : st.inCode <;> simp [hb, hf]
    · dsimp only
      by_cases hb : st.inCode <;> simp [hb, hf]

theorem chunkFold_inCode (lines : List (List Char)) :
    ∀ st : CState,
      (if (lines.foldl chunkStep st).inCode then 1 else 0)
        = ((if st.inCode then 1 else 0) + fenceLinesCount lines) % 2 := by
  induction lines with
  | nil =>
    intro st
    by_cases hb : st.inCode <;> simp [hb, fenceLinesCount]
  | cons l ls ih =>
    intro st
    rw [List.foldl_cons, ih (chunkStep st l), chunkStep_inCode]
    have hcnt : fenceLinesCount (l :: ls)
        = (if isFence l then 1 else 0) + fenceLinesCount ls := by
      simp only [fenceLinesCount, List.countP_cons]
      omega
    rw [hcnt]
    omega

theorem chunkStep_fence (st : CState) (l : List Char) (hl : '\n' ∉ l)
    (h1 : ∀ c ∈ st.chunks, fenceLinesCount (pySplitlines c.markdown) % 2 = 0)
    (h2 : fenceLinesCount st.buf % 2 = (if st.inCode then 1 else 0))
    (h3 : ∀ x ∈ st.buf, '\n' ∉ x) :
    (∀ c ∈ (chunkStep st l).chunks,
        fenceLinesCount (pySplitlines c.markdown) % 2 = 0) ∧
    fenceLinesCount (chunkStep st l).buf % 2 =
      (if (chunkStep st l).inCode then 1 else 0) ∧
    (∀ x ∈ (chunkStep st l).buf, '\n' ∉ x) := by
  unfold chunkStep
  split
  · rename_i hf
    dsimp only
    refine ⟨h1, ?_, ?_⟩
    · have hcnt : fenceLinesCount (st.buf ++ [l]) = fenceLinesCount st.buf + 1 := by
        simp [fenceLinesCount, List.countP_append, List.countP_cons, hf]
      rw [hcnt]
      by_cases hb : st.inCode <;> simp [hb] at h2 ⊢ <;> omega
    · intro x hx
      rcases List.mem_append.1 hx with hx | hx
      · exact h3 x hx
      · rw [List.mem_singleton] at hx
        rw [hx]
        exact hl
  · rename_i hf
    split
    · rename_i hcond
      dsimp only
      have hb : st.inCode = false := by
        cases hst : st.inCode
        · rfl
        · rw [hst] at hcond
          simp at hcond
      have hbuf0 : fenceLinesCount st.buf % 2 = 0 := by
        rw [h2, hb]
        simp
      refine ⟨flushBuf_chunks_fence st h1 hbuf0 h3, ?_, ?_⟩
      · rw [flushBuf_buf, flushBuf_inCode, hb]
        simp [fenceLinesCount, List.countP_cons, hf]
      · intro x hx
        rw [flushBuf_buf] at hx
        simp only [List.nil_append, List.mem_singleton] at hx
        rw [hx]
        exact hl
    · rename_i hcond
      dsimp only
      refine ⟨h1, ?_, ?_⟩
      · have hcnt : fenceLinesCount (st.buf ++ [l]) = fenceLinesCount st.buf := by
          simp [fenceLinesCount, List.countP_append, List.countP_cons, hf]
        rw [hcnt, h2]
      · intro x hx
        rcases List.mem_append.1 hx with hx | hx
        · exact h3 x hx
        · rw [List.mem_singleton] at hx
          rw [hx]
          exact hl

theorem chunkFold_fence (lines : List (List Char)) :
    ∀ st : CState,
      (∀ c ∈ st.chunks, fenceLinesCount (pySplitlines c.markdown) % 2 = 0) →
      fenceLinesCount st.buf % 2 = (if st.inCode then 1 else 0) →
      (∀ x ∈ st.buf, '\n' ∉ x) →
      (∀ l ∈ lines, '\n' ∉ l) →
      ((∀ c ∈ (lines.foldl chunkStep st).chunks,
          fenceLinesCount (pySplitlines c.markdown) % 2 = 0) ∧
        fenceLinesCount (lines.foldl chunkStep st).buf % 2 =
          (if (lines.foldl chunkStep st).inCode then 1 else 0) ∧
        (∀ x ∈ (lines.foldl chunkStep st).buf, '\n' ∉ x)) := by
  induction lines with
  | nil =>
    intro st h1 h2 h3 _
    exact ⟨h1, h2, h3⟩
  | cons l ls ih =>
    intro st h1 h2 h3 h4
    rw [List.foldl_cons]
    obtain ⟨s1, s2, s3⟩ := chunkStep_fence st l (h4 l (List.mem_cons_self _ _)) h1 h2 h3
    exact ih (chunkStep st l) s1 s2 s3 (fun x hx => h4 x (List.mem_cons_of_mem _ hx))

/-- Claim C2 (fence integrity): for every markdown input with balanced
code fences, every chunk produced by chunk_markdown contains an even
number of fence-marker lines, so a fence opened inside a chunk closes
inside the same chunk and no chunk boundary falls inside a fence. -/
theorem fence_integrity (md : List Char) (h : balancedFences md) :
    ∀ c ∈ chunk_markdown md, fenceLinesCount (pySplitlines c.markdown) % 2 = 0 := by
  unfold chunk_markdown
  have hNl : ∀ l ∈ pySplitlines md, '\n' ∉ l := pySplitlines_noNl md
  obtain ⟨hCh, hBuf, hBnl⟩ := chunkFold_fence (pySplitlines md) ⟨[], [], none, false⟩
    (by intro c hc; simp at hc) (by simp [fenceLinesCount])
    (by intro x hx; simp at hx) hNl
  have hIc := chunkFold_inCode (pySplitlines md) ⟨[], [], none, false⟩
  have hIc0 : (if ((pySplitlines md).foldl chunkStep ⟨[], [], none, false⟩).inCode
      then 1 else 0) = 0 := by
    rw [hIc]
    show (0 + fenceLinesCount (pySplitlines md)) % 2 = 0
    omega
  have hBuf0 : fenceLinesCount
      ((pySplitlines md).foldl chunkStep ⟨[], [], none, false⟩).buf % 2 = 0 := by
    rw [hBuf, hIc0]
  exact flushBuf_chunks_fence _ hCh hBuf0 hBnl

/-- Witness for the fence-integrity claim on a concrete balanced
markdown document. -/
theorem fence_integrity_witness :
    balancedFences mdEx ∧
    ∀ c ∈ chunk_markdown mdEx, fenceLinesCount (pySplitlines c.markdown) % 2 = 0 :=
  ⟨by decide, fence_integrity mdEx (by decide)⟩

end VF
